import Mathlib

/-!
# codemerger: verification of the traversal-and-selection engine

Shallow embedding of `src/index.js` (the only source file).  The filesystem
is modelled as a finite tree of named entries; the external collaborators
(the gitignore matcher from the `ignore` library, the text classifier, the
locale collator) are modelled as function parameters, with the properties
the spec assigns to them stated as explicit hypotheses or as spec-modelled
definitions where a claim needs them.
-/

deriving instance DecidableEq for Except

namespace Codemerger

/-- A directory entry as the walker sees it (`fs.readdirSync` with file
types).  A file carries the text-classifier verdict for it (`isTextFile`
is an external black-box predicate per spec §4.2) and the outcome of
reading it at assembly time (`fs.readFileSync`: content, or the error
message thrown). -/
inductive FsEntry : Type where
  | file (name : String) (isText : Bool) (content : Except String String)
  | dir (name : String) (children : List FsEntry)

/-- `path.relative(baseFolder, absPath).split(path.sep).join('/')`:
the relative path of entry `name` under the directory whose own relative
path is `pre` (empty string at the base folder). -/
def relOf (pre name : String) : String :=
  if pre = "" then name else pre ++ "/" ++ name

/-- `isMatched` from src/index.js lines 101-106: directories are tested
with a trailing `/`, files as-is.  `ig` is the `ignores` test of a
pattern-set instance of the external `ignore` library. -/
def isMatched (ig : String → Bool) (relPath : String) (isDir : Bool) : Bool :=
  if isDir then ig (relPath ++ "/") else ig relPath

/-- One collected item: `[./relPath, absPath]` from the source, with the
absolute path represented by the relative path (the base folder prefix is
constant) and paired with the file's read outcome for later assembly. -/
abbrev Item := String × String × Except String String

/-- The mode-specific file inclusion test of the walk (src/index.js lines
132-151): in allow mode a file must match the allow set; in deny mode it
must not match the deny set. -/
def modePass (ig : String → Bool) (allowIg : Option (String → Bool)) (rel : String) : Bool :=
  match allowIg with
  | some a => isMatched a rel false
  | none => !isMatched ig rel false

/-- The `walk` closure of `mergeCodes` (src/index.js lines 120-171),
restricted to the items it pushes: directories are entered
unconditionally; a file is pushed when its mode test passes and the text
classifier accepts it, in which case `[./relPath, absPath]` is recorded. -/
def walkItems (ig : String → Bool) (allowIg : Option (String → Bool)) :
    String → List FsEntry → List Item
  | _, [] => []
  | pre, .dir n ch :: rest =>
      walkItems ig allowIg (relOf pre n) ch ++ walkItems ig allowIg pre rest
  | pre, .file n t c :: rest =>
      (let rel := relOf pre n
       if modePass ig allowIg rel && t then [("./" ++ rel, rel, c)] else []) ++
      walkItems ig allowIg pre rest

/-- The relative paths of the directories the walker descends into
(the recursive `walk(absPath)` calls): the source makes this call for
every directory entry, with no condition (src/index.js lines 127-130). -/
def walkDirs : String → List FsEntry → List String
  | _, [] => []
  | pre, .dir n ch :: rest =>
      relOf pre n :: (walkDirs (relOf pre n) ch ++ walkDirs pre rest)
  | pre, .file _ _ _ :: rest => walkDirs pre rest

/-- Spec-side inventory: every file of the tree with its relative path,
classifier verdict and read outcome. -/
def filesOf : String → List FsEntry → List (String × Bool × Except String String)
  | _, [] => []
  | pre, .dir n ch :: rest => filesOf (relOf pre n) ch ++ filesOf pre rest
  | pre, .file n t c :: rest => (relOf pre n, t, c) :: filesOf pre rest

/-- Spec-side inventory: the relative paths of every directory of the tree. -/
def dirsOf : String → List FsEntry → List String
  | _, [] => []
  | pre, .dir n ch :: rest => relOf pre n :: (dirsOf (relOf pre n) ch ++ dirsOf pre rest)
  | pre, .file _ _ _ :: rest => dirsOf pre rest

/-- Induction principle for entry lists that also recurses into the
children of a directory. -/
theorem fsInduction (motive : List FsEntry → Prop)
    (hnil : motive [])
    (hfile : ∀ n t c rest, motive rest → motive (.file n t c :: rest))
    (hdir : ∀ n ch rest, motive ch → motive rest → motive (.dir n ch :: rest)) :
    ∀ es, motive es
  | [] => hnil
  | .file n t c :: rest => hfile n t c rest (fsInduction motive hnil hfile hdir rest)
  | .dir n ch :: rest =>
      hdir n ch rest (fsInduction motive hnil hfile hdir ch)
        (fsInduction motive hnil hfile hdir rest)

/-- The walk collects exactly the inventoried files that pass the mode
test and the text classifier, in inventory order. -/
theorem walkItems_eq_filter (ig : String → Bool) (allowIg : Option (String → Bool)) :
    ∀ pre es, walkItems ig allowIg pre es =
      ((filesOf pre es).filter (fun f => modePass ig allowIg f.1 && f.2.1)).map
        (fun f => ("./" ++ f.1, f.1, f.2.2)) := by
  intro pre es
  induction es using fsInduction generalizing pre with
  | hnil => simp [walkItems, filesOf]
  | hfile n t c rest ih =>
      simp only [walkItems, filesOf, List.filter_cons, List.map_append, ih]
      by_cases h : modePass ig allowIg (relOf pre n) && t <;> simp [h]
  | hdir n ch rest ih1 ih2 =>
      simp [walkItems, filesOf, List.filter_append, List.map_append, ih1, ih2]

/-- Membership characterisation of the walk result. -/
theorem mem_walkItems (ig : String → Bool) (allowIg : Option (String → Bool))
    (pre : String) (es : List FsEntry) (dp r : String) (c : Except String String) :
    (dp, r, c) ∈ walkItems ig allowIg pre es ↔
      dp = "./" ++ r ∧ (r, true, c) ∈ filesOf pre es ∧
        modePass ig allowIg r = true := by
  rw [walkItems_eq_filter]
  simp only [List.mem_map, List.mem_filter]
  constructor
  · rintro ⟨⟨r', t', c'⟩, ⟨hmem, hpass⟩, heq⟩
    simp only [Prod.mk.injEq] at heq
    obtain ⟨h1, h2, h3⟩ := heq
    subst h1 h2 h3
    simp only [Bool.and_eq_true] at hpass
    exact ⟨rfl, by simpa [hpass.2] using hmem, hpass.1⟩
  · rintro ⟨h1, h2, h3⟩
    exact ⟨(r, true, c), ⟨h2, by simp [h3]⟩, by simp [h1]⟩

/-- The matcher contract the spec assigns to gitignore pattern sets
(§4.1 together with §4.4: "a matched directory's contents are by
definition excluded"): whenever a directory path with trailing `/`
matches, every path below that directory matches as well. -/
def Hereditary (ig : String → Bool) : Prop :=
  ∀ d s : String, ig (d ++ "/") = true → ig (d ++ "/" ++ s) = true

/-- `r` lies under some directory whose relative path, with a trailing
`/` appended, matches the pattern set. -/
def UnderMatchedDir (ig : String → Bool) (r : String) : Prop :=
  ∃ d s : String, r = d ++ "/" ++ s ∧ ig (d ++ "/") = true

/-- C1: in deny mode (no allow set), the walk result, viewed as a set,
is exactly the text-classified files under the base directory, minus the
files matching the deny pattern set, minus the files lying under a
directory whose relative path with trailing `/` matches the deny pattern
set.  The deny pattern set is any matcher satisfying the spec's
gitignore contract (`Hereditary`). -/
theorem deny_walk_eq_spec_set (ig : String → Bool) (es : List FsEntry)
    (hig : Hereditary ig) (dp r : String) (c : Except String String) :
    (dp, r, c) ∈ walkItems ig none "" es ↔
      dp = "./" ++ r ∧ (r, true, c) ∈ filesOf "" es ∧
        ig r = false ∧ ¬ UnderMatchedDir ig r := by
  rw [mem_walkItems]
  have hmode : modePass ig none r = !(ig r) := rfl
  constructor
  · rintro ⟨h1, h2, h3⟩
    rw [hmode, Bool.not_eq_true'] at h3
    refine ⟨h1, h2, h3, ?_⟩
    rintro ⟨d, s, rfl, hd⟩
    exact absurd (hig d s hd) (by simp [h3])
  · rintro ⟨h1, h2, h3, -⟩
    exact ⟨h1, h2, by rw [hmode, h3]; rfl⟩

/-- Witness for C1: a concrete hereditary matcher and tree. -/
theorem deny_walk_eq_spec_set_witness :
    Hereditary (fun _ => false) ∧
      ("./a.txt", "a.txt", Except.ok "A") ∈
        walkItems (fun _ => false) none "" [.file "a.txt" true (.ok "A")] := by
  have h : Hereditary (fun _ => false) := fun d s hds => by simp at hds
  refine ⟨h, ?_⟩
  exact (deny_walk_eq_spec_set (fun _ => false) _ h _ _ _).mpr
    ⟨rfl, by simp [filesOf, relOf], rfl, by rintro ⟨d, s, _, hd⟩; simp at hd⟩

/-- Modelled from the spec: gitignore basename matching for slash-free
patterns — "pattern matches by basename across depths per gitignore
semantics" (§8 scenario).  The external `ignore` library supplies this
behaviour; it is not part of src/. -/
def matchesBasename (pat rel : String) : Bool :=
  (rel.data.foldl (fun acc c => if c = '/' then [] else acc.concat c) []) == pat.data

/-- The §8 allow-mode scenario tree: `keep.js`, `nested/keep.js`,
`other.js`, all classified as text. -/
def keepTree : List FsEntry :=
  [.file "keep.js" true (.ok "K"),
   .dir "nested" [.file "keep.js" true (.ok "N")],
   .file "other.js" true (.ok "O")]

/-- C2: in allow mode the walk result, viewed as a set, is exactly the
text-classified files intersected with the files matching the allow
set — for any matcher, so in particular independent of whether any
ancestor directory matches; and on the spec's scenario a basename
pattern `keep.js` selects `./keep.js` and `./nested/keep.js` at both
depths while `./other.js` is excluded. -/
theorem allow_walk_eq_spec_set :
    (∀ (ig a : String → Bool) (pre : String) (es : List FsEntry)
        (dp r : String) (c : Except String String),
      (dp, r, c) ∈ walkItems ig (some a) pre es ↔
        dp = "./" ++ r ∧ (r, true, c) ∈ filesOf pre es ∧ a r = true) ∧
    walkItems (fun _ => false) (some (matchesBasename "keep.js")) "" keepTree =
      [("./keep.js", "keep.js", .ok "K"),
       ("./nested/keep.js", "nested/keep.js", .ok "N")] := by
  constructor
  · intro ig a pre es dp r c
    rw [mem_walkItems]
    have hmode : modePass ig (some a) r = a r := rfl
    rw [hmode]
  · simp only [keepTree, walkItems, relOf, modePass, isMatched]
    decide

/-- C3 counterexample: the deny matcher matches the directory `sub/`,
yet the walker still descends into `sub` — the source walk recurses into
every directory unconditionally, so "skip descending iff the directory
matches" is false. -/
theorem walker_prune_claim_false :
    ¬ (∀ d, d ∈ dirsOf "" [.dir "sub" [.file "a.txt" true (.ok "A")]] →
        (d ∈ walkDirs "" [.dir "sub" [.file "a.txt" true (.ok "A")]] ↔
          isMatched (fun s => s == "sub/") d true = false)) := by
  intro h
  have hd : "sub" ∈ dirsOf "" [.dir "sub" [.file "a.txt" true (.ok "A")]] := by
    simp [dirsOf, relOf]
  have hvisit : "sub" ∈ walkDirs "" [.dir "sub" [.file "a.txt" true (.ok "A")]] := by
    simp [walkDirs, relOf]
  have hmatch : isMatched (fun s => s == "sub/") "sub" true = true := by
    simp [isMatched]
  rw [(h "sub" hd).mp hvisit] at hmatch
  exact Bool.false_ne_true hmatch

/-- C3 amended: the walker descends into every directory of the tree,
in deny mode and allow mode alike, whatever the matchers say — no
pruning ever happens. -/
theorem walker_descends_into_every_dir :
    ∀ (pre : String) (es : List FsEntry), walkDirs pre es = dirsOf pre es := by
  intro pre es
  induction es using fsInduction generalizing pre with
  | hnil => simp [walkDirs, dirsOf]
  | hfile n t c rest ih => simp [walkDirs, dirsOf, ih]
  | hdir n ch rest ih1 ih2 => simp [walkDirs, dirsOf, ih1, ih2]

/-! ## Fence selection (src/index.js lines 51-63) -/

/-- The backtick character (U+0060). -/
def btick : Char := Char.ofNat 96

/-- Model of `content.match(/`+/g).map(m => m.length)`: the lengths of
the maximal runs of consecutive backticks, in order.  `cur` is the
length of the run in progress. -/
def btickRuns : Nat → List Char → List Nat
  | cur, [] => if cur = 0 then [] else [cur]
  | cur, c :: cs =>
      if c = btick then btickRuns (cur + 1) cs
      else if cur = 0 then btickRuns 0 cs else cur :: btickRuns 0 cs

/-- `Math.max(...)` over the run lengths (0 when there are none). -/
def maxOf (l : List Nat) : Nat := l.foldl Nat.max 0

/-- `chooseFence` (src/index.js lines 51-63): empty content or content
with no backtick run gets the three-backtick default, otherwise a run of
`max(3, longest + 1)` backticks. -/
def chooseFence (content : String) : String :=
  if content = "" then "```"
  else if btickRuns 0 content.data = [] then "```"
  else String.mk (List.replicate (Nat.max 3 (maxOf (btickRuns 0 content.data) + 1)) btick)

theorem foldl_max_eq (l : List Nat) :
    ∀ b : Nat, List.foldl Nat.max b l = Nat.max b (List.foldl Nat.max 0 l) := by
  induction l with
  | nil => intro b; simp
  | cons x xs ih =>
      intro b
      simp only [List.foldl_cons]
      rw [ih (Nat.max b x), ih (Nat.max 0 x)]
      simp [Nat.max_assoc]

theorem maxOf_cons (a : Nat) (l : List Nat) : maxOf (a :: l) = Nat.max a (maxOf l) := by
  simp only [maxOf, List.foldl_cons]
  rw [foldl_max_eq]
  simp

theorem maxOf_nil : maxOf [] = 0 := rfl

theorem replicate_append_btick_cons (cur : Nat) (cs : List Char) :
    List.replicate cur btick ++ btick :: cs = List.replicate (cur + 1) btick ++ cs := by
  rw [List.replicate_succ', List.append_assoc]
  rfl

/-- The longest run `btickRuns` reports is realised as a run of
backticks in the scanned text. -/
theorem replicate_maxOf_btickRuns_infix :
    ∀ (cs : List Char) (cur : Nat),
      List.replicate (maxOf (btickRuns cur cs)) btick <:+:
        (List.replicate cur btick ++ cs) := by
  intro cs
  induction cs with
  | nil =>
      intro cur
      by_cases h : cur = 0
      · subst h; simp [btickRuns, maxOf_nil]
      · simp only [btickRuns, if_neg h, maxOf_cons, maxOf_nil, Nat.max_zero, List.append_nil]
        exact List.infix_rfl
  | cons c cs' ih =>
      intro cur
      by_cases hc : c = btick
      · subst hc
        rw [replicate_append_btick_cons]
        simpa [btickRuns] using ih (cur + 1)
      · by_cases h0 : cur = 0
        · subst h0
          simp only [btickRuns, if_neg hc, if_pos rfl, List.replicate_zero, List.nil_append]
          exact List.infix_cons (by simpa using ih 0)
        · simp only [btickRuns, if_neg hc, if_neg h0, maxOf_cons]
          rcases Nat.le_total cur (maxOf (btickRuns 0 cs')) with hle | hle
          · have hmr : Nat.max cur (maxOf (btickRuns 0 cs')) = maxOf (btickRuns 0 cs') :=
              Nat.max_eq_right hle
            rw [hmr]
            have h2 : List.replicate (maxOf (btickRuns 0 cs')) btick <:+: c :: cs' :=
              List.infix_cons (by simpa using ih 0)
            exact h2.trans (List.suffix_append _ _).isInfix
          · have hml : Nat.max cur (maxOf (btickRuns 0 cs')) = cur :=
              Nat.max_eq_left hle
            rw [hml]
            exact (List.prefix_append _ _).isInfix

/-- A backtick run that is a prefix of `xs ++ c :: ys`, with `c` not a
backtick, is already a prefix of `xs`. -/
theorem replicate_prefix_of_append_cons {c : Char} (hc : c ≠ btick) :
    ∀ (k : Nat) (xs ys : List Char),
      List.replicate k btick <+: (xs ++ c :: ys) → List.replicate k btick <+: xs := by
  intro k
  induction k with
  | zero => intro xs ys _; simp
  | succ m ih =>
      intro xs ys h
      obtain ⟨t, ht⟩ := h
      rw [List.replicate_succ, List.cons_append] at ht
      cases xs with
      | nil =>
          simp only [List.nil_append, List.cons.injEq] at ht
          exact absurd ht.1.symm hc
      | cons x xs' =>
          simp only [List.cons_append, List.cons.injEq] at ht
          obtain ⟨u, hu⟩ := ih xs' ys ⟨t, ht.2⟩
          exact ⟨u, by rw [List.replicate_succ, List.cons_append, hu, ht.1]⟩

/-- A backtick run inside `xs ++ c :: ys`, with `c` not a backtick, lies
entirely inside `xs` or entirely inside `ys`. -/
theorem replicate_infix_split {k : Nat} {c : Char} (hc : c ≠ btick) :
    ∀ (xs ys : List Char), List.replicate k btick <:+: (xs ++ c :: ys) →
      List.replicate k btick <:+: xs ∨ List.replicate k btick <:+: ys := by
  intro xs
  induction xs with
  | nil =>
      intro ys h
      obtain ⟨s, t, hst⟩ := h
      cases s with
      | nil =>
          simp only [List.nil_append] at hst
          cases k with
          | zero => exact Or.inl List.nil_infix
          | succ m =>
              rw [List.replicate_succ, List.cons_append] at hst
              simp only [List.cons.injEq] at hst
              exact absurd hst.1.symm hc
      | cons a s' =>
          simp only [List.cons_append, List.nil_append, List.append_assoc,
            List.cons.injEq] at hst
          exact Or.inr ⟨s', t, by rw [List.append_assoc]; exact hst.2⟩
  | cons x xs' ih =>
      intro ys h
      obtain ⟨s, t, hst⟩ := h
      cases s with
      | nil =>
          simp only [List.nil_append, List.cons_append] at hst
          have hpre : List.replicate k btick <+: (x :: xs') ++ c :: ys :=
            ⟨t, by rw [List.cons_append]; exact hst⟩
          exact Or.inl (replicate_prefix_of_append_cons hc k (x :: xs') ys hpre).isInfix
      | cons a s' =>
          simp only [List.cons_append, List.cons.injEq] at hst
          rcases ih ys ⟨s', t, hst.2⟩ with h1 | h1
          · exact Or.inl (List.infix_cons h1)
          · exact Or.inr h1

/-- Every backtick run contained in the scanned text is bounded by the
longest run `btickRuns` reports. -/
theorem le_maxOf_btickRuns :
    ∀ (cs : List Char) (cur k : Nat),
      List.replicate k btick <:+: (List.replicate cur btick ++ cs) →
      k ≤ maxOf (btickRuns cur cs) := by
  intro cs
  induction cs with
  | nil =>
      intro cur k h
      rw [List.append_nil] at h
      have hk : k ≤ cur := by simpa using h.length_le
      by_cases h0 : cur = 0
      · subst h0; simpa [btickRuns, maxOf_nil] using hk
      · simp only [btickRuns, if_neg h0, maxOf_cons, maxOf_nil, Nat.max_zero]
        exact hk
  | cons c cs' ih =>
      intro cur k h
      by_cases hc : c = btick
      · subst hc
        rw [replicate_append_btick_cons] at h
        simpa [btickRuns] using ih (cur + 1) k h
      · rcases replicate_infix_split hc (List.replicate cur btick) cs' h with h1 | h1
        · have hk : k ≤ cur := by simpa using h1.length_le
          by_cases h0 : cur = 0
          · subst h0
            exact le_trans hk (Nat.zero_le _)
          · simp only [btickRuns, if_neg hc, if_neg h0, maxOf_cons]
            exact le_trans hk (Nat.le_max_left _ _)
        · have hk := ih 0 k (by simpa using h1)
          by_cases h0 : cur = 0
          · subst h0
            simpa [btickRuns, hc] using hk
          · simp only [btickRuns, if_neg hc, if_neg h0, maxOf_cons]
            exact le_trans hk (Nat.le_max_right _ _)

/-- Closed form of the fence: always a backtick run of length
`max 3 (longest reported run + 1)`. -/
theorem chooseFence_data (content : String) :
    (chooseFence content).data =
      List.replicate (Nat.max 3 (maxOf (btickRuns 0 content.data) + 1)) btick := by
  unfold chooseFence
  by_cases h1 : content = ""
  · subst h1
    decide
  · rw [if_neg h1]
    by_cases h2 : btickRuns 0 content.data = []
    · rw [if_pos h2, h2]
      decide
    · rw [if_neg h2]

/-- C4: for every content, the fence is a pure backtick string of length
`max(3, L+1)` where `L` is the length of the longest maximal backtick
run (characterised as the greatest `k` with `k` consecutive backticks
occurring in the content); four backticks yield a five-backtick fence,
and empty or backtick-free content yields the three-backtick default. -/
theorem chooseFence_run_length (content : String) (L : Nat)
    (hL : List.replicate L btick <:+: content.data)
    (hmax : ∀ k, List.replicate k btick <:+: content.data → k ≤ L) :
    (chooseFence content).data = List.replicate (Nat.max 3 (L + 1)) btick ∧
      chooseFence "" = "```" ∧ chooseFence "no ticks here" = "```" ∧
      chooseFence "````" = "`````" := by
  have hA := replicate_maxOf_btickRuns_infix content.data 0
  have h1 : maxOf (btickRuns 0 content.data) ≤ L := hmax _ (by simpa using hA)
  have h2 : L ≤ maxOf (btickRuns 0 content.data) :=
    le_maxOf_btickRuns content.data 0 L (by simpa using hL)
  refine ⟨?_, by decide, by decide, by decide⟩
  rw [chooseFence_data, le_antisymm h1 h2]

/-- Witness for C4 at content `ab``c` with longest run 2. -/
theorem chooseFence_run_length_witness :
    (chooseFence "ab``c").data = List.replicate (Nat.max 3 (2 + 1)) btick := by
  have hmax : ∀ k, List.replicate k btick <:+: ("ab``c").data → k ≤ 2 := by
    intro k hk
    have h := le_maxOf_btickRuns ("ab``c").data 0 k (by simpa using hk)
    have h2 : maxOf (btickRuns 0 ("ab``c").data) = 2 := by decide
    omega
  exact (chooseFence_run_length "ab``c" 2 (by decide) hmax).1

/-- C5: the chosen fence never occurs as a substring of the content. -/
theorem chooseFence_not_infix (content : String) :
    ¬ (chooseFence content).data <:+: content.data := by
  intro h
  rw [chooseFence_data] at h
  have hb := le_maxOf_btickRuns content.data 0 _ (by simpa using h)
  have h3 := Nat.le_max_right 3 (maxOf (btickRuns 0 content.data) + 1)
  exact Nat.not_succ_le_self _ (le_trans h3 hb)

/-! ## Document assembly (src/index.js lines 176-194) -/

/-- One iteration of the assembly loop (src/index.js lines 180-193): the
path header, then the content wrapped in its chosen fence (a newline
appended when the content does not end in one); when the read threw, the
already-written header is followed by a fixed three-backtick block
carrying the error message. -/
def renderItem : String × Except String String → String
  | (displayPath, .ok content) =>
      displayPath ++ ":\n" ++ chooseFence content ++ "\n" ++
        (if content.endsWith "\n" then content else content ++ "\n") ++
        chooseFence content ++ "\n\n"
  | (displayPath, .error msg) =>
      displayPath ++ ":\n" ++ "```\n" ++ "Error reading file: " ++ msg ++ "\n" ++ "```\n\n"

/-- The assembly loop: `output` starts empty and accumulates one block
per sorted item (src/index.js lines 179-194). -/
def mergeOutput (items : List (String × Except String String)) : String :=
  items.foldl (fun acc it => acc ++ renderItem it) ""

theorem foldl_render (l : List (String × Except String String)) :
    ∀ acc : String, l.foldl (fun acc it => acc ++ renderItem it) acc = acc ++ mergeOutput l := by
  induction l with
  | nil => intro acc; simp [mergeOutput]
  | cons x xs ih =>
      intro acc
      simp only [mergeOutput, List.foldl_cons] at *
      rw [ih (acc ++ renderItem x), ih (("" : String) ++ renderItem x)]
      simp [String.append_assoc]

theorem mergeOutput_append (xs ys : List (String × Except String String)) :
    mergeOutput (xs ++ ys) = mergeOutput xs ++ mergeOutput ys := by
  simp only [mergeOutput, List.foldl_append]
  rw [foldl_render ys (List.foldl _ "" xs)]
  rfl

/-- C8: a failed read does not abort assembly — the document is the
blocks before the failure, an inline fenced error block for the failed
entry, and the blocks of all remaining entries. -/
theorem assembly_survives_read_error
    (xs ys : List (String × Except String String)) (dp msg : String) :
    mergeOutput (xs ++ (dp, Except.error msg) :: ys) =
      mergeOutput xs ++
        (dp ++ ":\n" ++ "```\n" ++ "Error reading file: " ++ msg ++ "\n" ++ "```\n\n") ++
        mergeOutput ys := by
  rw [mergeOutput_append]
  have hcons : mergeOutput ((dp, Except.error msg) :: ys) =
      renderItem (dp, Except.error msg) ++ mergeOutput ys := by
    simp only [mergeOutput, List.foldl_cons]
    rw [foldl_render ys]
    rfl
  rw [hcons]
  simp [renderItem, String.append_assoc]

/-- C9: the error block is exactly the header line, a three-backtick
fence, the message line, a three-backtick fence and a blank line;
`chooseFence` is not applied to the message, whose own fence would be
longer whenever the message contains a run of three or more backticks. -/
theorem error_block_fixed_fence (dp msg : String) :
    renderItem (dp, Except.error msg) =
      dp ++ ":\n" ++ "```\n" ++ "Error reading file: " ++ msg ++ "\n" ++ "```\n\n" ∧
    (List.replicate 3 btick <:+: msg.data → chooseFence msg ≠ "```") := by
  refine ⟨rfl, ?_⟩
  intro h heq
  have hb := le_maxOf_btickRuns msg.data 0 3 (by simpa using h)
  have hdata : List.replicate (Nat.max 3 (maxOf (btickRuns 0 msg.data) + 1)) btick
      = ("```" : String).data := by
    rw [← chooseFence_data, heq]
  have hthree : ("```" : String).data.length = 3 := by decide
  have hlen : Nat.max 3 (maxOf (btickRuns 0 msg.data) + 1) = 3 := by
    have hc := congrArg List.length hdata
    simp only [List.length_replicate] at hc
    rw [hthree] at hc
    exact hc
  have hm : maxOf (btickRuns 0 msg.data) + 1 ≤ 3 :=
    le_trans (Nat.le_max_right 3 _) hlen.le
  omega

/-- Witness for C9 with a message that itself contains four backticks. -/
theorem error_block_fixed_fence_witness :
    renderItem ("./x", Except.error "````") =
      "./x" ++ ":\n" ++ "```\n" ++ "Error reading file: " ++ "````" ++ "\n" ++ "```\n\n" ∧
    chooseFence "````" ≠ "```" := by
  obtain ⟨h1, h2⟩ := error_block_fixed_fence "./x" "````"
  exact ⟨h1, h2 (by decide)⟩

/-! ## Output delivery (src/index.js lines 196-209 and 265-268) -/

/-- The observable destination of the assembled document. -/
inductive SinkResult : Type where
  | clipboard (doc : String)
  | fileWrite (path : String) (doc : String)
deriving DecidableEq

/-- The delivery tail of `mergeCodes` (lines 196-209): clipboard when
requested, falling back to `fs.writeFileSync(resultFile, …)` when the
clipboard write throws (`clipOk = false`). -/
def deliver (useClipboard clipOk : Bool) (resultFile doc : String) : SinkResult :=
  if useClipboard then
    if clipOk then .clipboard doc else .fileWrite resultFile doc
  else .fileWrite resultFile doc

/-- The destination wiring of the main action (lines 265-268):
`useClipboard = options.clipboard || !output`, and the result path is
`path.resolve(output)` when an output argument is given, else the
literal string `clipboard`.  `resolve` abstracts `path.resolve`. -/
def actionSink (resolve : String → String) (clipboardFlag : Bool)
    (output : Option String) (clipOk : Bool) (doc : String) : SinkResult :=
  deliver (clipboardFlag || output.isNone) clipOk
    (match output with
     | some o => resolve o
     | none => "clipboard")
    doc

/-- C10: with no output argument the destination defaults to clipboard,
and on clipboard failure the fallback writes the document to the
literal relative path `clipboard` (resolved against the working
directory by the file write), never to a user-designated path. -/
theorem clipboard_fallback_writes_literal_path
    (resolve : String → String) (clipboardFlag : Bool) (doc : String) :
    actionSink resolve clipboardFlag none false doc = .fileWrite "clipboard" doc := by
  simp [actionSink, deliver]

/-! ## Sorting and full merge (src/index.js lines 116-210) -/

/-- The sorted item list of `mergeCodes` (line 176):
`mergedItems.sort((a, b) => a[0].localeCompare(b[0]))`, with the
external comparator abstracted as a boolean `le` on display paths and
the stable JS sort modelled by the stable `List.mergeSort`. -/
def sortedItems (ig : String → Bool) (allowIg : Option (String → Bool))
    (le : String → String → Bool) (tree : List FsEntry) : List Item :=
  (walkItems ig allowIg "" tree).mergeSort (fun x y => le x.1 y.1)

/-- `mergeCodes` (lines 116-210) up to the produced document: walk,
sort by display path, assemble. -/
def mergeCodes (ig : String → Bool) (allowIg : Option (String → Bool))
    (le : String → String → Bool) (tree : List FsEntry) : String :=
  mergeOutput ((sortedItems ig allowIg le tree).map (fun it => (it.1, it.2.2)))

/-! ## CLI configuration (src/index.js lines 265-323) -/

/-- The inputs of the main action that drive selection: the allow
patterns (`-a`), the content of the ignore pattern file (`-i`, when
supplied) and the inline ignore patterns (`-l`). -/
structure CliOptions where
  allow : List String
  ignoreFile : Option String
  inlineIgnore : List String

/-- `loadIgnorePatterns` minus the file I/O (src/index.js lines 30-46):
split on newlines, trim, drop blank lines and `#` comments. -/
def parseIgnoreLines (data : String) : List String :=
  ((data.splitOn "\n").map String.trim).filter (fun t => !(t == "" || t.startsWith "#"))

/-- The main `program.action` (lines 265-323) up to the produced
document and the warning flag: a non-empty allow list configures allow
mode (the deny inputs then only decide the warning); otherwise the deny
set is built from the parsed ignore-file lines plus the inline
patterns.  `build` abstracts `ignore().add(patterns)` of the external
`ignore` library. -/
def programAction (build : List String → String → Bool)
    (le : String → String → Bool) (tree : List FsEntry)
    (opts : CliOptions) : String × Bool :=
  if opts.allow.isEmpty then
    (mergeCodes
      (build ((match opts.ignoreFile with
        | some data => parseIgnoreLines data
        | none => []) ++ opts.inlineIgnore))
      none le tree, false)
  else
    (mergeCodes (build []) (some (build opts.allow)) le tree,
     opts.ignoreFile.isSome || !opts.inlineIgnore.isEmpty)

/-- In allow mode the walk never consults the deny set. -/
theorem walkItems_allow_deny_irrelevant (ig1 ig2 a : String → Bool)
    (pre : String) (es : List FsEntry) :
    walkItems ig1 (some a) pre es = walkItems ig2 (some a) pre es := by
  rw [walkItems_eq_filter, walkItems_eq_filter]
  rfl

/-- C6: with an allow list supplied, the produced document is
independent of the deny-related inputs, which are silently superseded;
when a deny input is present alongside, the warning flag (not an error)
is set.  Moreover even a fully loaded deny set would not change the
document in allow mode. -/
theorem allow_supersedes_deny (build : List String → String → Bool)
    (le : String → String → Bool) (tree : List FsEntry)
    (allow : List String) (h : allow ≠ [])
    (if1 if2 : Option String) (il1 il2 : List String) :
    (programAction build le tree ⟨allow, if1, il1⟩).1 =
      (programAction build le tree ⟨allow, if2, il2⟩).1 ∧
    ((if1.isSome ∨ il1 ≠ []) →
      (programAction build le tree ⟨allow, if1, il1⟩).2 = true) ∧
    (∀ ig1 ig2 : String → Bool,
      mergeCodes ig1 (some (build allow)) le tree =
        mergeCodes ig2 (some (build allow)) le tree) := by
  have hne : allow.isEmpty = false := by
    cases allow with
    | nil => exact absurd rfl h
    | cons a as => rfl
  refine ⟨?_, ?_, ?_⟩
  · simp [programAction, hne]
  · intro hdeny
    simp only [programAction, hne, Bool.if_false_left]
    rcases hdeny with h1 | h1
    · simp [Option.isSome_iff_exists] at h1
      obtain ⟨v, rfl⟩ := h1
      simp
    · cases il1 with
      | nil => exact absurd rfl h1
      | cons x xs => simp
  · intro ig1 ig2
    unfold mergeCodes sortedItems
    rw [walkItems_allow_deny_irrelevant ig1 ig2]

/-- Witness for C6: allow list `keep.js` with and without deny inputs. -/
theorem allow_supersedes_deny_witness :
    (programAction (fun _ _ => false) (fun _ _ => true) keepTree
        ⟨["keep.js"], some "node_modules\n", ["dist"]⟩).1 =
      (programAction (fun _ _ => false) (fun _ _ => true) keepTree
        ⟨["keep.js"], none, []⟩).1 ∧
    (programAction (fun _ _ => false) (fun _ _ => true) keepTree
        ⟨["keep.js"], some "node_modules\n", ["dist"]⟩).2 = true := by
  obtain ⟨h1, h2, -⟩ := allow_supersedes_deny (fun _ _ => false) (fun _ _ => true)
    keepTree ["keep.js"] (by simp) (some "node_modules\n") none ["dist"] []
  exact ⟨h1, h2 (Or.inl rfl)⟩

/-! ## The sort comparator (src/index.js line 176) -/

/-- Strict character-code lexicographic comparison, the order claim C7
asserts for adjacent output entries. -/
def codeLtB : List Char → List Char → Bool
  | [], [] => false
  | [], _ :: _ => true
  | _ :: _, [] => false
  | a :: as, b :: bs => if a < b then true else if b < a then false else codeLtB as bs

/-- ASCII case folding: the primary collation weight of a character. -/
def asciiFold (c : Char) : Nat :=
  if 65 ≤ c.toNat ∧ c.toNat ≤ 90 then c.toNat + 32 else c.toNat

/-- Modelled from the spec: `String.prototype.localeCompare` — the
"locale-aware string comparison" of §8 — is supplied by the runtime's
default-locale collator (ICU), not by src/.  For ASCII strings it is
modelled as a two-level collation: a primary pass on case-folded
letters, ties broken by a case pass (lowercase before uppercase, the
ICU default).  The two levels are packed into one key list separated by
a 0, which is below every character code. -/
def localeKey (s : String) : List Nat :=
  s.data.map asciiFold ++
    0 :: s.data.map (fun c => if 65 ≤ c.toNat ∧ c.toNat ≤ 90 then 1 else 0)

/-- Lexicographic `≤` on collation keys. -/
def keyLe : List Nat → List Nat → Bool
  | [], _ => true
  | _ :: _, [] => false
  | a :: as, b :: bs => if a < b then true else if b < a then false else keyLe as bs

/-- The modelled `a[0].localeCompare(b[0]) <= 0` comparator. -/
def localeLe (a b : String) : Bool := keyLe (localeKey a) (localeKey b)

theorem keyLe_total : ∀ x y : List Nat, (keyLe x y || keyLe y x) = true := by
  intro x
  induction x with
  | nil => intro y; simp [keyLe]
  | cons a as ih =>
      intro y
      cases y with
      | nil => simp [keyLe]
      | cons b bs =>
          simp only [keyLe]
          by_cases hab : a < b
          · simp [hab]
          · by_cases hba : b < a
            · simp [hab, hba]
            · simp [hab, hba, ih bs]

theorem keyLe_trans :
    ∀ x y z : List Nat, keyLe x y = true → keyLe y z = true → keyLe x z = true := by
  intro x
  induction x with
  | nil => intro y z _ _; rfl
  | cons a as ih =>
      intro y z h1 h2
      cases y with
      | nil => simp [keyLe] at h1
      | cons b bs =>
          cases z with
          | nil => simp [keyLe] at h2
          | cons c cs =>
              simp only [keyLe] at h1 h2 ⊢
              by_cases hab : a < b
              · by_cases hbc : b < c
                · simp [Nat.lt_trans hab hbc]
                · rw [if_neg hbc] at h2
                  by_cases hcb : c < b
                  · rw [if_pos hcb] at h2
                    exact absurd h2 Bool.false_ne_true
                  · have hac : a < c := by omega
                    simp [hac]
              · rw [if_neg hab] at h1
                by_cases hba : b < a
                · rw [if_pos hba] at h1
                  exact absurd h1 Bool.false_ne_true
                · rw [if_neg hba] at h1
                  have heq : a = b := by omega
                  subst heq
                  by_cases hac : a < c
                  · simp [hac]
                  · rw [if_neg hac] at h2 ⊢
                    by_cases hca : c < a
                    · rw [if_pos hca] at h2
                      exact absurd h2 Bool.false_ne_true
                    · rw [if_neg hca] at h2 ⊢
                      exact ih bs cs h1 h2

theorem localeLe_total (a b : String) : (localeLe a b || localeLe b a) = true :=
  keyLe_total (localeKey a) (localeKey b)

theorem localeLe_trans (a b c : String)
    (h1 : localeLe a b = true) (h2 : localeLe b c = true) : localeLe a c = true :=
  keyLe_trans (localeKey a) (localeKey b) (localeKey c) h1 h2

/-- The counterexample tree for C7: two text files `B.js` and `a.js`. -/
def abTree : List FsEntry :=
  [.file "B.js" true (.ok "B"), .file "a.js" true (.ok "A")]

/-- C7 counterexample: the source sorts with `localeCompare`, which puts
`./a.js` before `./B.js` (primary collation is case-folded), while
strict character-code order would put `./B.js` first — the adjacent
pair in the assembled order violates the claimed character-code
ordering. -/
theorem sort_not_code_lexicographic :
    ¬ (List.Chain' (fun p q : Item => codeLtB p.1.data q.1.data = true)
        (sortedItems (fun _ => false) none localeLe abTree)) := by
  intro h
  have hle : localeLe "./B.js" "./a.js" = false := by decide
  have hsort : sortedItems (fun _ => false) none localeLe abTree =
      [("./a.js", "a.js", Except.ok "A"), ("./B.js", "B.js", Except.ok "B")] := by
    simp only [sortedItems, abTree, walkItems, modePass, isMatched, relOf]
    simp [List.mergeSort, List.merge, hle]
  rw [hsort] at h
  simp only [List.chain'_cons, List.chain'_singleton, and_true] at h
  exact absurd h (by decide)

/-- C7 amended: the assembled order is sorted by the locale-aware
comparator (the modelled `localeCompare`), not by character code —
adjacent entries are non-decreasing under `localeLe`, and strictly
increasing whenever the display paths are pairwise distinct. -/
theorem sorted_by_locale_comparator (ig : String → Bool)
    (allowIg : Option (String → Bool)) (tree : List FsEntry) :
    (sortedItems ig allowIg localeLe tree).Pairwise
      (fun p q : Item => localeLe p.1 q.1 = true) ∧
    (((walkItems ig allowIg "" tree).map (fun it => it.1)).Nodup →
      (sortedItems ig allowIg localeLe tree).Pairwise
        (fun p q : Item => localeLe p.1 q.1 = true ∧ p.1 ≠ q.1)) := by
  have hsorted : (sortedItems ig allowIg localeLe tree).Pairwise
      (fun p q : Item => localeLe p.1 q.1 = true) := by
    have := @List.sorted_mergeSort Item (fun x y : Item => localeLe x.1 y.1)
      (fun a b c h1 h2 => localeLe_trans a.1 b.1 c.1 h1 h2)
      (fun a b => localeLe_total a.1 b.1)
      (walkItems ig allowIg "" tree)
    simpa [sortedItems] using this
  refine ⟨hsorted, fun hnd => ?_⟩
  have hperm : List.Perm (sortedItems ig allowIg localeLe tree)
      (walkItems ig allowIg "" tree) :=
    List.mergeSort_perm _ _
  have hnd2 : ((sortedItems ig allowIg localeLe tree).map (fun it => it.1)).Nodup :=
    (hperm.map (fun it => it.1)).nodup_iff.mpr hnd
  have hne : (sortedItems ig allowIg localeLe tree).Pairwise
      (fun p q : Item => p.1 ≠ q.1) := List.pairwise_map.mp hnd2
  exact hsorted.and hne

end Codemerger
